import Mathlib

/-!
Verification of the hybrid retrieval engine of rsk-chattalk.

Strings are modelled as lists of characters; JS numbers are modelled as
rationals (the programs under consideration only add, multiply, divide and
compare them, and `Math.sqrt` is modelled with `Real.sqrt`).
-/

namespace ChatTalk

/-- Whitespace test used by the model of `trim()` and `split(/\s+/)`
(space, tab, newline, carriage return). -/
def isWs (c : Char) : Bool :=
  c == ' ' || c == '\t' || c == '\n' || c == '\r'

/-- Model of `String.prototype.trim`: drop leading and trailing whitespace. -/
def trimL (l : List Char) : List Char :=
  ((l.dropWhile isWs).reverse.dropWhile isWs).reverse

/-- Model of `s.toLowerCase().trim()` as applied to both arguments at the
top of `calculateSimilarity`. -/
def normalize (l : List Char) : List Char :=
  trimL (l.map Char.toLower)

/-- Boolean test that `small` is a leading segment of `big`
(helper for the model of `String.prototype.includes`). -/
def isPrefixOfL : List Char → List Char → Bool
  | [], _ => true
  | _ :: _, [] => false
  | a :: as, b :: bs => a == b && isPrefixOfL as bs

/-- Model of `big.includes(small)`: `small` occurs contiguously in `big`. -/
def containsL (big small : List Char) : Bool :=
  match big with
  | [] => isPrefixOfL small []
  | c :: rest => isPrefixOfL small (c :: rest) || containsL rest small

/-- Worker for the model of `s.split(/\s+/)`.  `cur` holds the (reversed)
characters of the chunk being built; `sep` records whether we are inside a
run of separator characters (so that a maximal whitespace run yields a
single split point, as the regex `\s+` does). -/
def splitWsGo : List Char → List Char → Bool → List (List Char)
  | [], cur, _ => [cur.reverse]
  | c :: rest, cur, sep =>
    if isWs c then
      if sep then splitWsGo rest [] true
      else cur.reverse :: splitWsGo rest [] true
    else splitWsGo rest (c :: cur) false

/-- Model of `s.split(/\s+/)` (JavaScript semantics: a leading or trailing
whitespace run contributes an empty chunk, and splitting the empty string
yields `[""]`). -/
def splitWs (l : List Char) : List (List Char) :=
  splitWsGo l [] false

/-- Model of `calculateSimilarity(question, faqQuestion)` from
`src/faq-system.js` lines 21-41: exact match after lowercase/trim gives 1,
substring containment in either direction gives 0.9, otherwise the number
of question tokens sharing a bidirectional substring relation with some
FAQ token, divided by the larger token count. -/
def calculateSimilarity (question faqQuestion : List Char) : ℚ :=
  let q1 := normalize question
  let q2 := normalize faqQuestion
  if q1 = q2 then 1
  else if containsL q1 q2 || containsL q2 q1 then 9/10
  else
    let words1 := splitWs q1
    let words2 := splitWs q2
    let intersection :=
      words1.filter fun word => words2.any fun w2 =>
        containsL w2 word || containsL word w2
    (intersection.length : ℚ) / (max words1.length words2.length : ℚ)


/-- One entry of the merged `allCategories` object scanned by
`findBestMatch`.  A category whose JSON value has no `questions` field
(such as the top-level `faq` / `general` / `networks` keys spread into the
merge, or the empty objects of the load-failure fallback) is modelled with
`questions = none`; `answer`/`command` may likewise be absent. -/
structure FAQCategory where
  key : List Char
  questions : Option (List (List Char))
  answer : Option (List Char)
  command : Option (List Char)
  executable : Bool
deriving DecidableEq

/-- The object built by `findBestMatch` when it records a new best match
(`src/faq-system.js` lines 57-64). -/
structure MatchResult where
  category : List Char
  answer : Option (List Char)
  command : Option (List Char)
  executable : Bool
  score : ℚ
  matchedQuestion : List Char
deriving DecidableEq

/-- The match object for category `cat` and canonical question `fq`. -/
def mkMatch (cat : FAQCategory) (fq : List Char) (score : ℚ) : MatchResult :=
  ⟨cat.key, cat.answer, cat.command, cat.executable, score, fq⟩

/-- The update performed by the inner loop body of `findBestMatch` for one
canonical question: replace the best match seen so far iff the new score is
strictly greater than the current best and at least the 0.4 threshold. -/
def fbmStep (question : List Char) (cat : FAQCategory)
    (st : Option MatchResult × ℚ) (fq : List Char) : Option MatchResult × ℚ :=
  let score := calculateSimilarity question fq
  if st.2 < score ∧ (2/5 : ℚ) ≤ score then (some (mkMatch cat fq score), score) else st

/-- Model of `findBestMatch(question)` from `src/faq-system.js` lines 44-73:
a fold over the categories (in object iteration order) and their question
lists, carrying `(bestMatch, bestScore)` initialised to `(null, 0)`.
Categories without a `questions` field are skipped. -/
def findBestMatch (cats : List FAQCategory) (question : List Char) : Option MatchResult :=
  (cats.foldl
    (fun st cat =>
      match cat.questions with
      | none => st
      | some qs => qs.foldl (fbmStep question cat) st)
    (none, 0)).1

/-- The instant-answer object returned by `getInstantAnswer`
(`src/faq-system.js` lines 77-94); `confidence` is the match score. -/
structure FAQResponse where
  answer : Option (List Char)
  command : Option (List Char)
  executable : Bool
  confidence : ℚ
  category : List Char
  matchedQuestion : List Char
deriving DecidableEq

/-- Model of `getInstantAnswer(question)`: `null` when `findBestMatch`
found nothing, otherwise the match wrapped as an FAQ response. -/
def getInstantAnswer (cats : List FAQCategory) (question : List Char) : Option FAQResponse :=
  (findBestMatch cats question).map fun m =>
    ⟨m.answer, m.command, m.executable, m.score, m.category, m.matchedQuestion⟩

/-- The fallback FAQ configuration installed by `loadFAQ` when reading or
parsing `faq-commands.json` fails: `{ faq: {}, general: {}, networks: {} }`.
Merging `{...this.faq.faq, ...this.faq}` then yields exactly the three
question-less top-level entries. -/
def fallbackFAQ : List FAQCategory :=
  [⟨"faq".toList, none, none, none, false⟩,
   ⟨"general".toList, none, none, none, false⟩,
   ⟨"networks".toList, none, none, none, false⟩]

/-- The branch taken by `askQuestion` for one question (`src/rag.js`
lines 285-340): answer from the FAQ, or fall through to retrieval. -/
inductive AnswerPath where
  | faq (resp : FAQResponse)
  | rag
deriving DecidableEq

/-- Model of the FAQ gate of `askQuestion`: the instant FAQ answer is used
iff `getInstantAnswer` produced a response whose confidence exceeds 0.6
(`if (faqResponse && faqResponse.confidence > 0.6)`); otherwise the RAG
fallback runs. -/
def askQuestionPath (cats : List FAQCategory) (question : List Char) : AnswerPath :=
  match getInstantAnswer cats question with
  | some resp => if (3/5 : ℚ) < resp.confidence then .faq resp else .rag
  | none => .rag

/-- Accumulation `dot += a[i] * b[i]` of `cosineSimilarity` (`src/rag.js`
lines 70-84); the `zip` truncates both vectors to the first
`min(a.length, b.length)` components exactly as the loop bound does. -/
def dotAcc (a b : List ℚ) : ℚ :=
  (a.zip b).foldl (fun acc p => acc + p.1 * p.2) 0

/-- Accumulation `aNorm += a[i] * a[i]` over the first
`min(a.length, b.length)` components. -/
def aNormAcc (a b : List ℚ) : ℚ :=
  (a.zip b).foldl (fun acc p => acc + p.1 * p.1) 0

/-- Accumulation `bNorm += b[i] * b[i]` over the first
`min(a.length, b.length)` components. -/
def bNormAcc (a b : List ℚ) : ℚ :=
  (a.zip b).foldl (fun acc p => acc + p.2 * p.2) 0

/-- Model of `cosineSimilarity(a, b)`: 0 when either accumulated norm is
exactly zero, otherwise the dot product over the square-rooted norms
(`Math.sqrt` modelled by `Real.sqrt`). -/
noncomputable def cosineSimilarity (a b : List ℚ) : ℝ :=
  if aNormAcc a b = 0 ∨ bNormAcc a b = 0 then 0
  else (dotAcc a b : ℝ) / (Real.sqrt (aNormAcc a b) * Real.sqrt (bNormAcc a b))

/-- The in-memory `embeddingCache` `Map` paired with the contents of the
persistent cache file (`none` models a missing `embeddings-cache.json`).
Values are kept generic: the file stores both arrays-of-arrays (document
batches) and single arrays (query vectors). -/
structure CacheState (V : Type) where
  mem : List (List Char × V)
  disk : Option (List (List Char × V))

/-- Model of `Map.prototype.set`: replace the value at an existing key in
place, otherwise append the new binding. -/
def mapSet {V : Type} : List (List Char × V) → List Char → V → List (List Char × V)
  | [], k, v => [(k, v)]
  | (k', v') :: rest, k, v =>
    if k' = k then (k, v) :: rest else (k', v') :: mapSet rest k v

/-- Model of `Map.prototype.get`. -/
def mapGet {V : Type} : List (List Char × V) → List Char → Option V
  | [], _ => none
  | (k', v') :: rest, k => if k' = k then some v' else mapGet rest k

/-- Model of `savePersistentCache` on the success path (`src/rag.js` lines
48-60): serialize every entry of the in-memory table to the cache file. -/
def savePersistentCache {V : Type} (mem : List (List Char × V)) :
    Option (List (List Char × V)) :=
  some mem

/-- One cache insert as performed around `embeddingCache.set(key, value)`
followed immediately by `savePersistentCache()` (`src/rag.js` lines
245-252 and 311-316). -/
def cachePut {V : Type} (s : CacheState V) (k : List Char) (v : V) : CacheState V :=
  let mem := mapSet s.mem k v
  ⟨mem, savePersistentCache mem⟩

/-- Model of a process restart followed by `loadPersistentCache`
(`src/rag.js` lines 27-45): the fresh empty `Map` is populated from the
cache file when it exists; a missing (or unreadable) file leaves the cache
empty. -/
def loadPersistentCache {V : Type} (disk : Option (List (List Char × V))) : CacheState V :=
  ⟨disk.getD [], disk⟩

/-!
The similarity search of `askQuestion` (`src/rag.js` lines 344-376).  A
corpus record is left abstract as a value of type `α`, and the search is
parameterised by the score assignment `f : α → β`, standing for
`r ↦ cosineSimilarity(queryVec, r.vector)`; only the linear order on
scores matters to the selection logic, so `β` is any linearly ordered type
with a zero (the initial value of `minScore`).
-/

/-- The descending-by-score comparison underlying
`scored.sort((a, b) => b.score - a.score)`. -/
def descBy {α β : Type} [LinearOrder β] (x y : β × α) : Prop :=
  y.1 ≤ x.1

instance {α β : Type} [LinearOrder β] : DecidableRel (descBy (α := α) (β := β)) :=
  fun x y => inferInstanceAs (Decidable (y.1 ≤ x.1))

instance {α β : Type} [LinearOrder β] : IsTotal (β × α) descBy :=
  ⟨fun a b => le_total b.1 a.1⟩

instance {α β : Type} [LinearOrder β] : IsTrans (β × α) descBy :=
  ⟨fun _ _ _ h1 h2 => le_trans h2 h1⟩

/-- Model of `scored.sort((a, b) => b.score - a.score)`: sort the
(score, record) pairs descending by score. -/
def sortDesc {α β : Type} [LinearOrder β] (s : List (β × α)) : List (β × α) :=
  s.insertionSort descBy

/-- `scored[scored.length - 1].score`, the score of the last buffer entry
(total model: 0 for an empty buffer, which the code never reads). -/
def lastScore {α β : Type} [Zero β] (s : List (β × α)) : β :=
  (s.getLast?.map Prod.fst).getD 0

/-- One iteration of the Fast/UltraFast bounded search loop over state
`(scored, minScore)`: push while the buffer holds fewer than `k` entries,
sorting it (and recording the minimum) the moment it fills; once full,
replace the last (minimum) entry and re-sort only when the new score
strictly exceeds `minScore`. -/
def boundedStep {α β : Type} [LinearOrder β] [Zero β] (f : α → β) (k : ℕ)
    (st : List (β × α) × β) (r : α) : List (β × α) × β :=
  if st.1.length < k then
    let scored := st.1 ++ [(f r, r)]
    if scored.length = k then
      (sortDesc scored, lastScore (sortDesc scored))
    else (scored, st.2)
  else if st.2 < f r then
    (sortDesc (st.1.dropLast ++ [(f r, r)]),
      lastScore (sortDesc (st.1.dropLast ++ [(f r, r)])))
  else st

/-- The Fast/UltraFast search: fold the bounded step over the index from
`([], 0)` and take the first `k` entries (`scored.slice(0, k)`). -/
def boundedSearch {α β : Type} [LinearOrder β] [Zero β]
    (f : α → β) (k : ℕ) (index : List α) : List (β × α) :=
  (index.foldl (boundedStep f k) ([], 0)).1.take k

/-- The Normal-mode search: score every record, sort descending, take the
first `k` entries. -/
def normalSearch {α β : Type} [LinearOrder β]
    (f : α → β) (k : ℕ) (index : List α) : List (β × α) :=
  (sortDesc (index.map fun r => (f r, r))).take k

/-- The three performance modes fixed at process start. -/
inductive PerfMode where
  | normal
  | fast
  | ultraFast
deriving DecidableEq

/-- The `topK` slice size selected by the active mode
(`ULTRA_FAST ? 2 : (FAST_MODE ? 3 : 5)`). -/
def modeTopK : PerfMode → ℕ
  | .normal => 5
  | .fast => 3
  | .ultraFast => 2

/-- The similarity search dispatch of `askQuestion`: exhaustive scoring
with a full sort in Normal mode, the bounded early-termination buffer in
Fast and UltraFast modes. -/
def querySearch {α β : Type} [LinearOrder β] [Zero β]
    (mode : PerfMode) (f : α → β) (k : ℕ) (index : List α) : List (β × α) :=
  match mode with
  | .normal => normalSearch f k index
  | .fast => boundedSearch f k index
  | .ultraFast => boundedSearch f k index




/-- State invariant of the bounded search once the buffer has filled:
`k` entries, sorted descending, with `minScore` tracking the score of the
last (minimum) entry. -/
def SortInv {α β : Type} [LinearOrder β] [Zero β] (k : ℕ)
    (st : List (β × α) × β) : Prop :=
  st.1.length = k ∧ List.Sorted descBy st.1 ∧ st.2 = lastScore st.1

/-- Strengthening of `SortInv` before the maximum record `m` has been
scanned: every buffered score is strictly below `f m`. -/
def PreInv {α β : Type} [LinearOrder β] [Zero β] (f : α → β) (k : ℕ) (m : α)
    (st : List (β × α) × β) : Prop :=
  SortInv k st ∧ ∀ x ∈ st.1, x.1 < f m

/-- Strengthening of `SortInv` after the maximum record `m` has entered
the buffer: it sits at the head and every other entry scores strictly
below it. -/
def FullInv {α β : Type} [LinearOrder β] [Zero β] (f : α → β) (k : ℕ) (m : α)
    (st : List (β × α) × β) : Prop :=
  SortInv k st ∧ st.1.head? = some (f m, m) ∧
    ∀ x ∈ st.1, x ≠ (f m, m) → x.1 < f m

/-!
Specification-side definitions.  `specScore` renders §4.1 of the spec word
for word, to be compared with `calculateSimilarity` (which is translated
from the source); it is used only by the refinement claim.
-/

/-- `small` occurs contiguously inside `big` ("is a substring of"). -/
def IsSubstr (small big : List Char) : Prop :=
  ∃ pre post, big = pre ++ small ++ post

lemma isPrefixOfL_iff {small big : List Char} :
    isPrefixOfL small big = true ↔ ∃ post, big = small ++ post := by
  induction small generalizing big with
  | nil => simp [isPrefixOfL]
  | cons a as ih =>
    cases big with
    | nil => simp [isPrefixOfL]
    | cons b bs =>
      simp only [isPrefixOfL, Bool.and_eq_true, beq_iff_eq, ih, List.cons_append,
        List.cons.injEq]
      constructor
      · rintro ⟨rfl, post, rfl⟩
        exact ⟨post, rfl, rfl⟩
      · rintro ⟨post, rfl, rfl⟩
        exact ⟨rfl, post, rfl⟩

lemma containsL_iff {big small : List Char} :
    containsL big small = true ↔ IsSubstr small big := by
  induction big with
  | nil =>
    simp only [containsL, IsSubstr, isPrefixOfL_iff]
    constructor
    · rintro ⟨post, h⟩
      exact ⟨[], post, by simpa using h⟩
    · rintro ⟨pre, post, h⟩
      exact ⟨post, by
        rcases List.append_eq_nil.mp (List.append_eq_nil.mp h.symm).1 with ⟨h1, h2⟩
        simp [h2, (List.append_eq_nil.mp h.symm).2]⟩
  | cons c rest ih =>
    simp only [containsL, Bool.or_eq_true, isPrefixOfL_iff, ih, IsSubstr]
    constructor
    · rintro (⟨post, h⟩ | ⟨pre, post, h⟩)
      · exact ⟨[], post, by simpa using h⟩
      · exact ⟨c :: pre, post, by simp [h]⟩
    · rintro ⟨pre, post, h⟩
      cases pre with
      | nil => exact Or.inl ⟨post, by simpa using h⟩
      | cons p ps =>
        simp only [List.cons_append, List.cons.injEq] at h
        exact Or.inr ⟨ps, post, h.2⟩

instance {small big : List Char} : Decidable (IsSubstr small big) :=
  decidable_of_iff _ containsL_iff

/-- Worker for the spec-side whitespace tokenizer: maximal nonempty runs
of non-whitespace characters. -/
def wsTokensGo : List Char → List Char → List (List Char)
  | [], cur => if cur = [] then [] else [cur.reverse]
  | c :: rest, cur =>
    if isWs c then
      if cur = [] then wsTokensGo rest []
      else cur.reverse :: wsTokensGo rest []
    else wsTokensGo rest (c :: cur)

/-- Spec-side tokenizer: "tokenize both strings on whitespace". -/
def wsTokens (l : List Char) : List (List Char) :=
  wsTokensGo l []

/-- Rendering of the spec's similarity algorithm (§4.1): exact equality of
the normalized strings scores 1.0; a substring in either direction scores
0.9; otherwise the count of candidate tokens covered by a bidirectional
substring test against the canonical tokens, over the max token count. -/
def specScore (candidate canonical : List Char) : ℚ :=
  let n1 := normalize candidate
  let n2 := normalize canonical
  if n1 = n2 then 1
  else if IsSubstr n1 n2 ∨ IsSubstr n2 n1 then 9/10
  else
    let t1 := wsTokens n1
    let t2 := wsTokens n2
    let covered := t1.countP fun w => decide (∃ v ∈ t2, IsSubstr w v ∨ IsSubstr v w)
    (covered : ℚ) / (max t1.length t2.length : ℚ)


/-- A one-category FAQ configuration used to instantiate theorems with
hypotheses at concrete inputs. -/
def demoCats : List FAQCategory :=
  [⟨"greet".toList, some ["hi".toList], some "hello".toList, none, false⟩]

/-- The match candidates contributed by one category: one per canonical
question, in list order (empty for a category without questions). -/
def catCandidates (question : List Char) (cat : FAQCategory) : List MatchResult :=
  match cat.questions with
  | none => []
  | some qs => qs.map fun fq => mkMatch cat fq (calculateSimilarity question fq)

/-- All candidates scanned by `findBestMatch`, in scan order. -/
def candidates (cats : List FAQCategory) (question : List Char) : List MatchResult :=
  cats.flatMap (catCandidates question)

/-- The best-so-far update of `findBestMatch`, expressed on a prebuilt
candidate (same test as `fbmStep`). -/
def candStep (st : Option MatchResult × ℚ) (c : MatchResult) : Option MatchResult × ℚ :=
  if st.2 < c.score ∧ (2/5 : ℚ) ≤ c.score then (some c, c.score) else st

/-- Invariant of the `findBestMatch` fold after scanning `processed`:
either nothing has reached the 0.4 threshold and the state is still
`(none, 0)`, or the state holds the first candidate attaining the maximum
score, which is at least the threshold. -/
def FbmInv (processed : List MatchResult) (st : Option MatchResult × ℚ) : Prop :=
  (st = (none, 0) ∧ ∀ x ∈ processed, x.score < 2/5) ∨
  (∃ r l1 l2, st = (some r, r.score) ∧ processed = l1 ++ r :: l2 ∧
    (2/5 : ℚ) ≤ r.score ∧ (∀ x ∈ l1, x.score < r.score) ∧
    ∀ x ∈ processed, x.score ≤ r.score)

/-!
Lemmas and claim theorems.
-/

lemma mapGet_mapSet {V : Type} (m : List (List Char × V)) (k : List Char) (v : V) :
    mapGet (mapSet m k v) k = some v := by
  induction m with
  | nil => simp [mapSet, mapGet]
  | cons p rest ih =>
    by_cases h : p.1 = k
    · simp [mapSet, h, mapGet]
    · simpa [mapSet, h, mapGet] using ih

/-- C7: a `put` of `(key, v)` followed by a process restart and `loadAll`
yields `get(key) = v`; the snapshot written synchronously at insert time
reproduces the in-memory entry. -/
theorem cache_round_trip {V : Type} (s : CacheState V) (k : List Char) (v : V) :
    mapGet (loadPersistentCache (cachePut s k v).disk).mem k = some v := by
  simp [cachePut, loadPersistentCache, savePersistentCache, mapGet_mapSet]

/-- C9: when the FAQ configuration fails to load, the fallback category
set makes every `findBestMatch` (and hence `getInstantAnswer`) return
none; both are total functions, so no exception can be raised. -/
theorem faq_load_failure_degrades (q : List Char) :
    findBestMatch fallbackFAQ q = none ∧ getInstantAnswer fallbackFAQ q = none :=
  ⟨rfl, rfl⟩

lemma foldl_add_sq1_nonneg :
    ∀ (l : List (ℚ × ℚ)) (c : ℚ), 0 ≤ c →
      0 ≤ l.foldl (fun acc p => acc + p.1 * p.1) c := by
  intro l
  induction l with
  | nil => intro c hc; simpa using hc
  | cons x xs ih =>
    intro c hc
    exact ih (c + x.1 * x.1) (add_nonneg hc (mul_self_nonneg x.1))

lemma foldl_add_sq2_nonneg :
    ∀ (l : List (ℚ × ℚ)) (c : ℚ), 0 ≤ c →
      0 ≤ l.foldl (fun acc p => acc + p.2 * p.2) c := by
  intro l
  induction l with
  | nil => intro c hc; simpa using hc
  | cons x xs ih =>
    intro c hc
    exact ih (c + x.2 * x.2) (add_nonneg hc (mul_self_nonneg x.2))

lemma aNormAcc_nonneg (a b : List ℚ) : 0 ≤ aNormAcc a b :=
  foldl_add_sq1_nonneg (a.zip b) 0 le_rfl

lemma bNormAcc_nonneg (a b : List ℚ) : 0 ≤ bNormAcc a b :=
  foldl_add_sq2_nonneg (a.zip b) 0 le_rfl

/-- C8: `cosineSimilarity` is total: when either accumulated norm (over
the first `min(len(a), len(b))` components) is exactly zero the result is
the real number 0, and otherwise the denominator of the division it
performs is provably non-zero, so the result is a well-defined real
number in every case (never NaN/undefined). -/
theorem cosineSimilarity_total (a b : List ℚ) :
    (aNormAcc a b = 0 ∨ bNormAcc a b = 0 → cosineSimilarity a b = 0) ∧
    (aNormAcc a b ≠ 0 → bNormAcc a b ≠ 0 →
      Real.sqrt (aNormAcc a b) * Real.sqrt (bNormAcc a b) ≠ 0 ∧
      cosineSimilarity a b =
        (dotAcc a b : ℝ) / (Real.sqrt (aNormAcc a b) * Real.sqrt (bNormAcc a b))) := by
  constructor
  · intro h
    simp [cosineSimilarity, h]
  · intro ha hb
    have ha' : (0 : ℝ) < (aNormAcc a b : ℝ) := by
      exact_mod_cast lt_of_le_of_ne (aNormAcc_nonneg a b) (Ne.symm ha)
    have hb' : (0 : ℝ) < (bNormAcc a b : ℝ) := by
      exact_mod_cast lt_of_le_of_ne (bNormAcc_nonneg a b) (Ne.symm hb)
    have hprod : 0 < Real.sqrt (aNormAcc a b) * Real.sqrt (bNormAcc a b) :=
      mul_pos (Real.sqrt_pos.mpr ha') (Real.sqrt_pos.mpr hb')
    refine ⟨ne_of_gt hprod, ?_⟩
    rw [cosineSimilarity, if_neg]
    push_neg
    exact ⟨ha, hb⟩

/-- C8 witness: the all-zero vector against `[3, 4]` has zero norm and
similarity 0. -/
theorem cosineSimilarity_total_witness : cosineSimilarity [0, 0] [3, 4] = 0 :=
  (cosineSimilarity_total [0, 0] [3, 4]).1 (Or.inl (by with_unfolding_all decide))

lemma askQuestionPath_of_none {cats : List FAQCategory} {q : List Char}
    (h : findBestMatch cats q = none) : askQuestionPath cats q = .rag := by
  simp [askQuestionPath, getInstantAnswer, h]

lemma askQuestionPath_of_some {cats : List FAQCategory} {q : List Char} {m : MatchResult}
    (h : findBestMatch cats q = some m) :
    askQuestionPath cats q =
      if (3/5 : ℚ) < m.score then
        .faq ⟨m.answer, m.command, m.executable, m.score, m.category, m.matchedQuestion⟩
      else .rag := by
  simp [askQuestionPath, getInstantAnswer, h]

/-- C6: the orchestrator answers instantly from the FAQ iff the matcher
returned a match whose score exceeds the 0.6 acceptance gate; with no
match, or a match at or below the gate, it falls through to retrieval. -/
theorem faq_gate (cats : List FAQCategory) (q : List Char) :
    (∀ m, findBestMatch cats q = some m →
      (askQuestionPath cats q =
          .faq ⟨m.answer, m.command, m.executable, m.score, m.category, m.matchedQuestion⟩ ↔
        (3/5 : ℚ) < m.score)) ∧
    (askQuestionPath cats q = .rag ↔
      (findBestMatch cats q = none ∨
        ∃ m, findBestMatch cats q = some m ∧ m.score ≤ 3/5)) := by
  constructor
  · intro m hm
    rw [askQuestionPath_of_some hm]
    by_cases hgate : (3/5 : ℚ) < m.score
    · simp [if_pos hgate, hgate]
    · simp [if_neg hgate, hgate]
  · cases h : findBestMatch cats q with
    | none =>
      rw [askQuestionPath_of_none h]
      simp
    | some m =>
      rw [askQuestionPath_of_some h]
      by_cases hgate : (3/5 : ℚ) < m.score
      · rw [if_pos hgate]
        constructor
        · intro hc
          exact absurd hc (by simp)
        · rintro (hn | ⟨m', hm', hle⟩)
          · exact absurd hn (by simp)
          · injection hm' with hm'
            subst hm'
            exact absurd hgate (not_lt.mpr hle)
      · rw [if_neg hgate]
        simp only [true_iff]
        exact Or.inr ⟨m, rfl, le_of_not_lt hgate⟩

/-- C6 witness: on the demo configuration, the question "hi" matches with
score 1 > 0.6 and is answered from the FAQ. -/
theorem faq_gate_witness :
    askQuestionPath demoCats "hi".toList =
      .faq ⟨some "hello".toList, none, false, 1, "greet".toList, "hi".toList⟩ :=
  ((faq_gate demoCats "hi".toList).1
      ⟨"greet".toList, some "hello".toList, none, false, 1, "hi".toList⟩
      (by with_unfolding_all decide)).mpr (by norm_num)

/-- C1 counterexample: the token-overlap branch is not symmetric.  For
"ab" against "a b" only one of the single token "ab" is covered over a
max of 2 tokens (score 1/2); in the other direction both of "a", "b" are
covered over a max of 2 (score 1). -/
theorem similarity_not_symmetric_cex :
    calculateSimilarity "ab".toList "a b".toList ≠
      calculateSimilarity "a b".toList "ab".toList := by
  with_unfolding_all decide

/-- C1 (amended): the scorer is symmetric on the exact-match branch and on
the substring branch (whose conditions are themselves symmetric), but not
in general: the token-overlap branch counts only the first argument's
covered tokens, so it is asymmetric even over the max-of-lengths
denominator. -/
theorem similarity_symmetric_exact_substr (a b : List Char) :
    (normalize a = normalize b →
      calculateSimilarity a b = calculateSimilarity b a) ∧
    ((containsL (normalize a) (normalize b) ||
        containsL (normalize b) (normalize a)) = true →
      calculateSimilarity a b = calculateSimilarity b a) := by
  constructor
  · intro h
    simp [calculateSimilarity, h]
  · intro h
    by_cases he : normalize a = normalize b
    · simp [calculateSimilarity, he]
    · simp only [calculateSimilarity]
      rw [if_neg he, if_pos h,
        if_neg fun hh : normalize b = normalize a => he hh.symm,
        if_pos (by rwa [Bool.or_comm] at h)]

/-- C1 witness: a substring pair scores equally in both directions. -/
theorem similarity_symmetric_exact_substr_witness :
    calculateSimilarity "hi".toList "hi there".toList =
      calculateSimilarity "hi there".toList "hi".toList :=
  (similarity_symmetric_exact_substr "hi".toList "hi there".toList).2
    (by with_unfolding_all decide)

lemma fbmStep_eq_candStep (q : List Char) (cat : FAQCategory)
    (st : Option MatchResult × ℚ) (fq : List Char) :
    fbmStep q cat st fq = candStep st (mkMatch cat fq (calculateSimilarity q fq)) :=
  rfl

lemma foldl_fbmStep_eq (q : List Char) (cat : FAQCategory) (qs : List (List Char))
    (st : Option MatchResult × ℚ) :
    qs.foldl (fbmStep q cat) st =
      (qs.map fun fq => mkMatch cat fq (calculateSimilarity q fq)).foldl candStep st := by
  rw [List.foldl_map]
  rfl

lemma findBestMatch_eq_candidates_foldl (cats : List FAQCategory) (q : List Char) :
    findBestMatch cats q = ((candidates cats q).foldl candStep (none, 0)).1 := by
  rw [findBestMatch]
  congr 1
  generalize (none, (0 : ℚ)) = st
  induction cats generalizing st with
  | nil => simp [candidates]
  | cons cat cs ih =>
    simp only [List.foldl_cons, candidates, List.flatMap_cons, List.foldl_append]
    rw [ih]
    congr 1
    cases h : cat.questions with
    | none => simp [catCandidates, h]
    | some qs =>
      simp only [catCandidates, h]
      exact foldl_fbmStep_eq q cat qs st

lemma fbmInv_step (processed : List MatchResult) (st : Option MatchResult × ℚ)
    (c : MatchResult) (h : FbmInv processed st) :
    FbmInv (processed ++ [c]) (candStep st c) := by
  rcases h with ⟨hst, hall⟩ | ⟨r, l1, l2, hst, hproc, hthr, hl1, hle⟩
  · subst hst
    by_cases hc : (0 : ℚ) < c.score ∧ (2/5 : ℚ) ≤ c.score
    · right
      refine ⟨c, processed, [], ?_, rfl, hc.2, ?_, ?_⟩
      · simp [candStep, hc]
      · intro x hx
        exact lt_of_lt_of_le (hall x hx) hc.2
      · intro x hx
        rcases List.mem_append.mp hx with hx | hx
        · exact le_of_lt (lt_of_lt_of_le (hall x hx) hc.2)
        · rw [List.mem_singleton.mp hx]
    · left
      have hlt : c.score < 2/5 := by
        by_contra hge
        exact hc ⟨lt_of_lt_of_le (by norm_num) (le_of_not_lt hge), le_of_not_lt hge⟩
      refine ⟨by simp [candStep, hc], ?_⟩
      intro x hx
      rcases List.mem_append.mp hx with hx | hx
      · exact hall x hx
      · rw [List.mem_singleton.mp hx]; exact hlt
  · subst hst
    by_cases hc : r.score < c.score ∧ (2/5 : ℚ) ≤ c.score
    · right
      refine ⟨c, processed, [], by simp [candStep, hc], rfl, hc.2, ?_, ?_⟩
      · intro x hx
        exact lt_of_le_of_lt (hle x hx) hc.1
      · intro x hx
        rcases List.mem_append.mp hx with hx | hx
        · exact le_of_lt (lt_of_le_of_lt (hle x hx) hc.1)
        · rw [List.mem_singleton.mp hx]
    · right
      have hcle : c.score ≤ r.score := by
        by_cases hthr' : (2/5 : ℚ) ≤ c.score
        · exact le_of_not_lt fun hlt => hc ⟨hlt, hthr'⟩
        · exact le_trans (le_of_lt (lt_of_not_le hthr')) hthr
      refine ⟨r, l1, l2 ++ [c], by simp [candStep, hc], by simp [hproc], hthr, hl1, ?_⟩
      intro x hx
      rcases List.mem_append.mp hx with hx | hx
      · exact hle x hx
      · rw [List.mem_singleton.mp hx]; exact hcle

lemma fbmInv_foldl :
    ∀ (cs processed : List MatchResult) (st : Option MatchResult × ℚ),
      FbmInv processed st → FbmInv (processed ++ cs) (cs.foldl candStep st) := by
  intro cs
  induction cs with
  | nil => intro processed st h; simpa using h
  | cons c cs ih =>
    intro processed st h
    have h' := fbmInv_step processed st c h
    have := ih (processed ++ [c]) (candStep st c) h'
    simpa [List.append_assoc] using this

lemma fbmInv_final (cats : List FAQCategory) (q : List Char) :
    FbmInv (candidates cats q) ((candidates cats q).foldl candStep (none, 0)) := by
  have h0 : FbmInv [] ((none : Option MatchResult), (0 : ℚ)) :=
    Or.inl ⟨rfl, by simp⟩
  simpa using fbmInv_foldl (candidates cats q) [] (none, 0) h0

/-- C4: `findBestMatch` either returns none or returns a match whose score
is at least the 0.4 threshold and which is the first-encountered candidate
attaining the maximum candidate score: every earlier candidate scores
strictly lower, and no candidate scores higher. -/
theorem findBestMatch_first_max (cats : List FAQCategory) (q : List Char) :
    findBestMatch cats q = none ∨
    ∃ r l1 l2, findBestMatch cats q = some r ∧
      candidates cats q = l1 ++ r :: l2 ∧ (2/5 : ℚ) ≤ r.score ∧
      (∀ x ∈ l1, x.score < r.score) ∧
      ∀ x ∈ candidates cats q, x.score ≤ r.score := by
  have hinv := fbmInv_final cats q
  rcases hinv with ⟨hst, _⟩ | ⟨r, l1, l2, hst, h2, h3, h4, h5⟩
  · left
    rw [findBestMatch_eq_candidates_foldl, hst]
  · right
    exact ⟨r, l1, l2, by rw [findBestMatch_eq_candidates_foldl, hst], h2, h3, h4, h5⟩

lemma containsL_nil (big : List Char) : containsL big [] = true := by
  cases big <;> simp [containsL, isPrefixOfL]

/-- C10 counterexample: against the non-empty canonical question " "
(one space), the candidate "" (empty after trimming) scores 1.0 via the
exact-match rule — both normalize to the empty string — not 0.9 as the
claim states for every non-empty canonical question. -/
theorem empty_candidate_score_cex :
    " ".toList ≠ ([] : List Char) ∧ normalize "".toList = [] ∧
    calculateSimilarity "".toList " ".toList ≠ 9/10 ∧
    calculateSimilarity "".toList " ".toList = 1 := by
  with_unfolding_all decide

/-- C10 (amended): against a canonical question that is non-empty after
normalization, a candidate that is empty after trimming scores exactly
0.9 (the empty string is a substring of every string); consequently, when
some category has a non-empty question list, `findBestMatch` on a
whitespace-only input returns a match rather than none. -/
theorem empty_candidate_score :
    (∀ cand c : List Char, normalize cand = [] → normalize c ≠ [] →
      calculateSimilarity cand c = 9/10) ∧
    (∀ (cats : List FAQCategory) (q : List Char) (cat : FAQCategory)
        (qs : List (List Char)), cat ∈ cats → cat.questions = some qs → qs ≠ [] →
      normalize q = [] → findBestMatch cats q ≠ none) := by
  have part1 : ∀ cand c : List Char, normalize cand = [] → normalize c ≠ [] →
      calculateSimilarity cand c = 9/10 := by
    intro cand c h1 h2
    simp only [calculateSimilarity]
    rw [if_neg (by rw [h1]; exact fun hh => h2 hh.symm),
      if_pos (by rw [h1, containsL_nil]; simp)]
  refine ⟨part1, ?_⟩
  intro cats q cat qs hcat hq hne hnorm hcontra
  rcases fbmInv_final cats q with ⟨hst, hall⟩ | ⟨r, l1, l2, hst, _⟩
  · obtain ⟨q0, rest, rfl⟩ : ∃ q0 rest, qs = q0 :: rest := by
      cases qs with
      | nil => exact absurd rfl hne
      | cons q0 rest => exact ⟨q0, rest, rfl⟩
    have hmem : mkMatch cat q0 (calculateSimilarity q q0) ∈ candidates cats q := by
      refine List.mem_flatMap.mpr ⟨cat, hcat, ?_⟩
      simp [catCandidates, hq]
    have hlt := hall _ hmem
    have hscore : (2/5 : ℚ) ≤ calculateSimilarity q q0 := by
      by_cases h0 : normalize q0 = []
      · rw [calculateSimilarity]
        simp only [hnorm, h0, if_pos]
        norm_num
      · rw [part1 q q0 hnorm h0]
        norm_num
    simp only [mkMatch] at hlt
    exact absurd hscore (not_le.mpr hlt)
  · rw [findBestMatch_eq_candidates_foldl, hst] at hcontra
    simp at hcontra

/-- C10 witness: a whitespace-only candidate scores 0.9 against "hi", and
`findBestMatch` on the demo configuration returns a match for it. -/
theorem empty_candidate_score_witness :
    calculateSimilarity " ".toList "hi".toList = 9/10 ∧
    findBestMatch demoCats " ".toList ≠ none :=
  ⟨empty_candidate_score.1 " ".toList "hi".toList (by with_unfolding_all decide)
      (by with_unfolding_all decide),
   empty_candidate_score.2 demoCats " ".toList
      ⟨"greet".toList, some ["hi".toList], some "hello".toList, none, false⟩
      ["hi".toList] (by simp [demoCats]) rfl (by simp)
      (by with_unfolding_all decide)⟩

section VectorSearch

variable {α β : Type} [LinearOrder β] [Zero β]

lemma sortDesc_perm (s : List (β × α)) : (sortDesc s).Perm s :=
  List.perm_insertionSort descBy s

lemma sortDesc_sorted (s : List (β × α)) : List.Sorted descBy (sortDesc s) :=
  List.sorted_insertionSort descBy s

lemma length_sortDesc (s : List (β × α)) : (sortDesc s).length = s.length :=
  (sortDesc_perm s).length_eq

lemma mem_sortDesc {s : List (β × α)} {x : β × α} : x ∈ sortDesc s ↔ x ∈ s :=
  (sortDesc_perm s).mem_iff

lemma head?_sortDesc_of_strict_max {s : List (β × α)} {x : β × α}
    (hx : x ∈ s) (hmax : ∀ y ∈ s, y ≠ x → y.1 < x.1) :
    (sortDesc s).head? = some x := by
  cases h : sortDesc s with
  | nil =>
    have : x ∈ sortDesc s := mem_sortDesc.mpr hx
    rw [h] at this
    cases this
  | cons hd tl =>
    have hhd : hd ∈ s := mem_sortDesc.mp (h ▸ List.mem_cons_self hd tl)
    have hsorted := sortDesc_sorted s
    rw [h] at hsorted
    by_cases heq : hd = x
    · simp [heq]
    · exfalso
      have hlt : hd.1 < x.1 := hmax hd hhd heq
      have hxmem : x ∈ hd :: tl := h ▸ mem_sortDesc.mpr hx
      rcases List.mem_cons.mp hxmem with hx1 | hx2
      · exact heq hx1.symm
      · have : descBy hd x := (List.sorted_cons.mp hsorted).1 x hx2
        exact absurd (lt_of_le_of_lt this hlt) (lt_irrefl _)

lemma head?_take {γ : Type} {k : ℕ} (hk : 1 ≤ k) (l : List γ) :
    (l.take k).head? = l.head? := by
  cases l with
  | nil => simp
  | cons a t =>
    cases k with
    | zero => exact absurd hk (by norm_num)
    | succ k => simp

lemma head_mem_dropLast {l : List (β × α)} {x : β × α}
    (hlen : 2 ≤ l.length) (hhd : l.head? = some x) : x ∈ l.dropLast := by
  cases l with
  | nil => simp at hhd
  | cons a t =>
    cases t with
    | nil => simp at hlen
    | cons b t' =>
      injection hhd with hhd
      subst hhd
      simp [List.dropLast]

lemma boundedStep_underfull {f : α → β} {k : ℕ} {scored : List (β × α)}
    {ms : β} {r : α} (h : scored.length + 1 < k) :
    boundedStep f k (scored, ms) r = (scored ++ [(f r, r)], ms) := by
  simp only [boundedStep]
  rw [if_pos (by omega)]
  simp only [List.length_append, List.length_singleton]
  rw [if_neg (by omega)]

lemma boundedStep_fill {f : α → β} {k : ℕ} {scored : List (β × α)}
    {ms : β} {r : α} (h : scored.length + 1 = k) :
    boundedStep f k (scored, ms) r =
      (sortDesc (scored ++ [(f r, r)]),
        lastScore (sortDesc (scored ++ [(f r, r)]))) := by
  simp only [boundedStep]
  rw [if_pos (by omega)]
  simp only [List.length_append, List.length_singleton]
  rw [if_pos h]

lemma foldl_boundedStep_underfull {f : α → β} {k : ℕ} :
    ∀ (l : List α) (scored : List (β × α)) (ms : β),
      scored.length + l.length < k →
      l.foldl (boundedStep f k) (scored, ms) =
        (scored ++ l.map fun r => (f r, r), ms) := by
  intro l
  induction l with
  | nil => intro scored ms _; simp
  | cons r rest ih =>
    intro scored ms h
    simp only [List.length_cons] at h
    rw [List.foldl_cons, boundedStep_underfull (by omega)]
    rw [ih (scored ++ [(f r, r)]) ms
      (by simp only [List.length_append, List.length_singleton]; omega)]
    simp

lemma foldl_boundedStep_fill {f : α → β} {k : ℕ} :
    ∀ (l : List α) (scored : List (β × α)) (ms : β),
      scored.length + l.length = k → 1 ≤ l.length →
      l.foldl (boundedStep f k) (scored, ms) =
        (sortDesc (scored ++ l.map fun r => (f r, r)),
          lastScore (sortDesc (scored ++ l.map fun r => (f r, r)))) := by
  intro l
  induction l with
  | nil => intro scored ms _ h1; simp at h1
  | cons r rest ih =>
    intro scored ms h h1
    simp only [List.length_cons] at h
    cases rest with
    | nil =>
      rw [List.foldl_cons, boundedStep_fill (by simp at h; omega)]
      simp
    | cons r2 rest' =>
      rw [List.foldl_cons, boundedStep_underfull (by simp at h; omega)]
      rw [ih (scored ++ [(f r, r)]) ms
        (by simp only [List.length_append, List.length_singleton, List.length_cons,
              List.length_nil] at h ⊢
            omega)
        (by simp)]
      simp

lemma lastScore_eq {s : List (β × α)} (h : s ≠ []) :
    lastScore s = (s.getLast h).1 := by
  rw [lastScore, List.getLast?_eq_getLast s h]
  rfl

lemma sortInv_step {f : α → β} {k : ℕ} {st : List (β × α) × β} {r : α}
    (hk : 1 ≤ k) (h : SortInv k st) : SortInv k (boundedStep f k st r) := by
  obtain ⟨hlen, hsort, hms⟩ := h
  simp only [boundedStep]
  rw [if_neg (by omega)]
  by_cases hlt : st.2 < f r
  · rw [if_pos hlt]
    refine ⟨?_, sortDesc_sorted _, rfl⟩
    rw [length_sortDesc]
    simp only [List.length_append, List.length_dropLast, List.length_singleton, hlen]
    omega
  · rw [if_neg hlt]
    exact ⟨hlen, hsort, hms⟩

lemma sortInv_foldl {f : α → β} {k : ℕ} (hk : 1 ≤ k) :
    ∀ (l : List α) (st : List (β × α) × β), SortInv k st →
      SortInv k (l.foldl (boundedStep f k) st) := by
  intro l
  induction l with
  | nil => intro st h; exact h
  | cons r rest ih =>
    intro st h
    exact ih (boundedStep f k st r) (sortInv_step hk h)

lemma preInv_step {f : α → β} {k : ℕ} {m : α} {st : List (β × α) × β} {r : α}
    (hk : 1 ≤ k) (h : PreInv f k m st) (hr : f r < f m) :
    PreInv f k m (boundedStep f k st r) := by
  obtain ⟨hsi, hall⟩ := h
  refine ⟨sortInv_step hk hsi, ?_⟩
  obtain ⟨hlen, hsort, hms⟩ := hsi
  simp only [boundedStep]
  rw [if_neg (by omega)]
  by_cases hlt : st.2 < f r
  · rw [if_pos hlt]
    intro x hx
    rcases List.mem_append.mp (mem_sortDesc.mp hx) with hx | hx
    · exact hall x ((List.dropLast_sublist st.1).subset hx)
    · rw [List.mem_singleton.mp hx]
      exact hr
  · rw [if_neg hlt]
    exact hall

lemma preInv_foldl {f : α → β} {k : ℕ} {m : α} (hk : 1 ≤ k) :
    ∀ (l : List α) (st : List (β × α) × β), (∀ r ∈ l, f r < f m) →
      PreInv f k m st → PreInv f k m (l.foldl (boundedStep f k) st) := by
  intro l
  induction l with
  | nil => intro st _ h; exact h
  | cons r rest ih =>
    intro st hall h
    exact ih (boundedStep f k st r) (fun x hx => hall x (List.mem_cons_of_mem r hx))
      (preInv_step hk h (hall r (List.mem_cons_self r rest)))

lemma fullInv_step {f : α → β} {k : ℕ} {m : α} {st : List (β × α) × β} {r : α}
    (h : FullInv f k m st) (hr : f r < f m) :
    FullInv f k m (boundedStep f k st r) := by
  obtain ⟨⟨hlen, hsort, hms⟩, hhead, hother⟩ := h
  have hne : st.1 ≠ [] := by
    intro hnil
    rw [hnil] at hhead
    simp at hhead
  have hk : 1 ≤ k := by
    rw [← hlen]
    exact List.length_pos.mpr hne
  simp only [boundedStep]
  rw [if_neg (by omega)]
  by_cases hlt : st.2 < f r
  · by_cases hy : st.1.getLast hne = (f m, m)
    · exfalso
      have h1 : st.2 = f m := by
        rw [hms, lastScore_eq hne]
        exact congrArg Prod.fst hy
      rw [h1] at hlt
      exact absurd hr (not_lt.mpr (le_of_lt hlt))
    · have hylt : (st.1.getLast hne).1 < f m :=
        hother (st.1.getLast hne) (List.getLast_mem hne) hy
      have hlen2 : 2 ≤ st.1.length := by
        by_contra hle
        have h1 : st.1.length = 1 := by
          have := List.length_pos.mpr hne
          omega
        obtain ⟨a, ha⟩ := List.length_eq_one.mp h1
        have hhd : a = (f m, m) := by
          rw [ha] at hhead
          simpa using hhead
        have h2 : st.1.getLast? = some a := by rw [ha]; rfl
        rw [List.getLast?_eq_getLast st.1 hne] at h2
        injection h2 with h2
        exact hy (by rw [h2, hhd])
      have hmmem : (f m, m) ∈ st.1.dropLast ++ [(f r, r)] :=
        List.mem_append_left _ (head_mem_dropLast hlen2 hhead)
      have hmax : ∀ z ∈ st.1.dropLast ++ [(f r, r)], z ≠ (f m, m) → z.1 < f m := by
        intro z hz hzne
        rcases List.mem_append.mp hz with hz | hz
        · exact hother z ((List.dropLast_sublist st.1).subset hz) hzne
        · rw [List.mem_singleton.mp hz]
          exact hr
      rw [if_pos hlt]
      refine ⟨⟨?_, sortDesc_sorted _, rfl⟩,
        head?_sortDesc_of_strict_max hmmem hmax, ?_⟩
      · rw [length_sortDesc]
        simp only [List.length_append, List.length_dropLast, List.length_singleton, hlen]
        omega
      · intro z hz
        exact hmax z (mem_sortDesc.mp hz)
  · rw [if_neg hlt]
    exact ⟨⟨hlen, hsort, hms⟩, hhead, hother⟩

lemma fullInv_foldl {f : α → β} {k : ℕ} {m : α} :
    ∀ (l : List α) (st : List (β × α) × β), (∀ r ∈ l, f r < f m) →
      FullInv f k m st → FullInv f k m (l.foldl (boundedStep f k) st) := by
  intro l
  induction l with
  | nil => intro st _ h; exact h
  | cons r rest ih =>
    intro st hall h
    exact ih (boundedStep f k st r) (fun x hx => hall x (List.mem_cons_of_mem r hx))
      (fullInv_step h (hall r (List.mem_cons_self r rest)))

lemma preInv_arrive {f : α → β} {k : ℕ} {m : α} {st : List (β × α) × β}
    (hk : 1 ≤ k) (h : PreInv f k m st) :
    FullInv f k m (boundedStep f k st m) := by
  obtain ⟨⟨hlen, hsort, hms⟩, hall⟩ := h
  have hne : st.1 ≠ [] := by
    intro hnil
    rw [hnil] at hlen
    simp at hlen
    omega
  have hlt : st.2 < f m := by
    rw [hms, lastScore_eq hne]
    exact hall _ (List.getLast_mem hne)
  have hmmem : (f m, m) ∈ st.1.dropLast ++ [(f m, m)] :=
    List.mem_append_right _ (List.mem_singleton_self _)
  have hmax : ∀ z ∈ st.1.dropLast ++ [(f m, m)], z ≠ (f m, m) → z.1 < f m := by
    intro z hz hzne
    rcases List.mem_append.mp hz with hz | hz
    · exact hall z ((List.dropLast_sublist st.1).subset hz)
    · exact absurd (List.mem_singleton.mp hz) hzne
  simp only [boundedStep]
  rw [if_neg (by omega), if_pos hlt]
  refine ⟨⟨?_, sortDesc_sorted _, rfl⟩,
    head?_sortDesc_of_strict_max hmmem hmax, ?_⟩
  · rw [length_sortDesc]
    simp only [List.length_append, List.length_dropLast, List.length_singleton, hlen]
    omega
  · intro z hz
    exact hmax z (mem_sortDesc.mp hz)

lemma foldl_boundedStep_split {f : α → β} {k : ℕ} (l : List α) :
    l.foldl (boundedStep f k) ([], 0) =
      (l.drop k).foldl (boundedStep f k)
        ((l.take k).foldl (boundedStep f k) ([], 0)) := by
  conv_lhs => rw [← List.take_append_drop k l]
  rw [List.foldl_append]

lemma boundedSearch_state_sortInv {f : α → β} {k : ℕ} {l : List α}
    (hk : 1 ≤ k) (hkl : k ≤ l.length) :
    SortInv k (l.foldl (boundedStep f k) ([], 0)) := by
  have hlen_take : (l.take k).length = k := by
    rw [List.length_take]
    omega
  rw [foldl_boundedStep_split,
    foldl_boundedStep_fill (l.take k) [] 0
      (by simp only [List.length_nil, Nat.zero_add, hlen_take])
      (by rw [hlen_take]; exact hk)]
  refine sortInv_foldl hk _ _ ⟨?_, sortDesc_sorted _, rfl⟩
  rw [length_sortDesc]
  simp only [List.nil_append, List.length_map, hlen_take]

lemma boundedSearch_length (f : α → β) (k : ℕ) (l : List α) :
    (boundedSearch f k l).length = min k l.length := by
  rcases Nat.eq_zero_or_pos k with hk | hk
  · subst hk
    simp [boundedSearch]
  · by_cases hkl : l.length < k
    · rw [boundedSearch, foldl_boundedStep_underfull l [] 0 (by simpa using hkl)]
      simp only [List.nil_append, List.length_take, List.length_map]
    · have hsi := boundedSearch_state_sortInv (f := f) hk (le_of_not_lt hkl)
      rw [boundedSearch, List.length_take, hsi.1]
      omega

lemma boundedSearch_sorted {f : α → β} {k : ℕ} {l : List α} (hkl : k ≤ l.length) :
    List.Sorted descBy (boundedSearch f k l) := by
  rcases Nat.eq_zero_or_pos k with hk | hk
  · subst hk
    simp [boundedSearch]
  · have hsi := boundedSearch_state_sortInv (f := f) hk hkl
    exact List.Pairwise.sublist (List.take_sublist k _) hsi.2.1

lemma boundedSearch_perm {f : α → β} {k : ℕ} {l : List α} (hlk : l.length ≤ k) :
    (boundedSearch f k l).Perm (l.map fun r => (f r, r)) := by
  by_cases hkl : l.length < k
  · rw [boundedSearch, foldl_boundedStep_underfull l [] 0 (by simpa using hkl)]
    simp only [List.nil_append]
    rw [List.take_of_length_le (by simp only [List.length_map]; omega)]
  · have hkeq : l.length = k := le_antisymm hlk (le_of_not_lt hkl)
    rcases Nat.eq_zero_or_pos k with hk0 | hk0
    · have hnil : l = [] := List.length_eq_zero.mp (by omega)
      subst hnil
      simp [boundedSearch]
    · rw [boundedSearch, foldl_boundedStep_fill l [] 0 (by simpa using hkeq) (by omega)]
      simp only [List.nil_append]
      rw [List.take_of_length_le (by rw [length_sortDesc]; simp only [List.length_map]; omega)]
      exact sortDesc_perm _

lemma normalSearch_length (f : α → β) (k : ℕ) (l : List α) :
    (normalSearch f k l).length = min k l.length := by
  rw [normalSearch, List.length_take, length_sortDesc, List.length_map]

lemma normalSearch_sorted (f : α → β) (k : ℕ) (l : List α) :
    List.Sorted descBy (normalSearch f k l) :=
  List.Pairwise.sublist (List.take_sublist k _) (sortDesc_sorted _)

lemma normalSearch_perm {f : α → β} {k : ℕ} {l : List α} (hlk : l.length ≤ k) :
    (normalSearch f k l).Perm (l.map fun r => (f r, r)) := by
  rw [normalSearch,
    List.take_of_length_le (by rw [length_sortDesc]; simp only [List.length_map]; omega)]
  exact sortDesc_perm _

/-- C2 counterexample: in Fast mode with its k = 3, an index of two
records whose scores arrive in ascending order is returned unsorted — the
bounded buffer is only sorted at the moment it fills, which never happens
when the index is smaller than k. -/
theorem querySearch_unsorted_cex :
    ¬ List.Sorted descBy (querySearch .fast (id : ℚ → ℚ) (modeTopK .fast) [0, 1]) := by
  with_unfolding_all decide

/-- C2 (amended): for every score assignment, index, k and mode, `query`
returns min(k, index size) records, and an empty index yields an empty
result; the result is sorted non-increasing by score in Normal mode for
every k, and in the bounded modes whenever the index has at least k
records; when k is at least the index size the result is a permutation of
all scored records (in the bounded modes with index size < k it is
returned in index order, not sorted). -/
theorem querySearch_length_sorted (mode : PerfMode) (f : α → β) (k : ℕ)
    (index : List α) :
    (querySearch mode f k index).length = min k index.length ∧
    (index = [] → querySearch mode f k index = []) ∧
    (mode = .normal → List.Sorted descBy (querySearch mode f k index)) ∧
    (k ≤ index.length → List.Sorted descBy (querySearch mode f k index)) ∧
    (index.length ≤ k →
      (querySearch mode f k index).Perm (index.map fun r => (f r, r))) := by
  cases mode with
  | normal =>
    refine ⟨normalSearch_length f k index, ?_, fun _ => normalSearch_sorted f k index,
      fun _ => normalSearch_sorted f k index, fun h => normalSearch_perm h⟩
    rintro rfl
    simp [querySearch, normalSearch, sortDesc]
  | fast =>
    refine ⟨boundedSearch_length f k index, ?_, fun h => absurd h (by decide),
      fun h => boundedSearch_sorted h, fun h => boundedSearch_perm h⟩
    rintro rfl
    simp [querySearch, boundedSearch]
  | ultraFast =>
    refine ⟨boundedSearch_length f k index, ?_, fun h => absurd h (by decide),
      fun h => boundedSearch_sorted h, fun h => boundedSearch_perm h⟩
    rintro rfl
    simp [querySearch, boundedSearch]

/-- C2 witness: in Fast mode with two records and k = 2 the result is
sorted, and its length is min(k, index size). -/
theorem querySearch_length_sorted_witness :
    List.Sorted descBy (querySearch PerfMode.fast (id : ℚ → ℚ) 2 [0, 1]) ∧
    (querySearch PerfMode.fast (id : ℚ → ℚ) 2 [0, 1]).length = min 2 2 :=
  ⟨(querySearch_length_sorted PerfMode.fast id 2 [0, 1]).2.2.2.1 (by decide),
   (querySearch_length_sorted PerfMode.fast id 2 [0, 1]).1⟩

/-- C3 counterexample: the dataset [0, 1] has a unique maximum (the second
record, score 1), yet the Fast-mode bounded search (k = 3) returns the
first record as top-1 — its buffer never fills, so it is never sorted —
while the Normal exhaustive search returns the true maximum. -/
theorem top1_bounded_vs_normal_cex :
    ([(0 : ℚ), 1] = [0] ++ 1 :: []) ∧
    (∀ r ∈ ([0] ++ [] : List ℚ), id r < id (1 : ℚ)) ∧
    (boundedSearch (id : ℚ → ℚ) (modeTopK .fast) [0, 1]).head? ≠
      (normalSearch (id : ℚ → ℚ) (modeTopK .normal) [0, 1]).head? := by
  with_unfolding_all decide

/-- C3 (amended): when the dataset holds at least k records (the bounded
buffer fills) and has a unique maximum score, the bounded/early-termination
search and the exhaustive search return the same top-1 result. -/
theorem top1_bounded_eq_normal [DecidableEq α] (f : α → β) (k1 k2 : ℕ)
    (l l1 l2 : List α) (m : α) (hk1 : 1 ≤ k1) (hk1l : k1 ≤ l.length) (hk2 : 1 ≤ k2)
    (hdec : l = l1 ++ m :: l2) (hmax : ∀ r ∈ l1 ++ l2, f r < f m) :
    (boundedSearch f k1 l).head? = (normalSearch f k2 l).head? := by
  have hml : m ∈ l := by
    rw [hdec]
    exact List.mem_append_right _ (List.mem_cons_self m l2)
  have hother : ∀ r ∈ l, r ≠ m → f r < f m := by
    intro r hr hne
    rw [hdec] at hr
    rcases List.mem_append.mp hr with h1 | h2
    · exact hmax r (List.mem_append_left _ h1)
    · rcases List.mem_cons.mp h2 with h3 | h4
      · exact absurd h3 hne
      · exact hmax r (List.mem_append_right _ h4)
  have hc1 : List.count m l1 = 0 := List.count_eq_zero.mpr fun hm1 =>
    absurd (hmax m (List.mem_append_left _ hm1)) (lt_irrefl _)
  have hc2 : List.count m l2 = 0 := List.count_eq_zero.mpr fun hm2 =>
    absurd (hmax m (List.mem_append_right _ hm2)) (lt_irrefl _)
  have hcount : List.count m l = 1 := by
    rw [hdec, List.count_append, List.count_cons_self, hc1, hc2]
  have hnorm : (normalSearch f k2 l).head? = some (f m, m) := by
    rw [normalSearch, head?_take hk2]
    refine head?_sortDesc_of_strict_max (List.mem_map.mpr ⟨m, hml, rfl⟩) ?_
    rintro y hy hne
    obtain ⟨r, hr, rfl⟩ := List.mem_map.mp hy
    exact hother r hr fun h => hne (by rw [h])
  rw [hnorm]
  have hlen_take : (l.take k1).length = k1 := by
    rw [List.length_take]
    omega
  have hcsplit : List.count m (l.take k1) + List.count m (l.drop k1) = 1 := by
    rw [← List.count_append, List.take_append_drop, hcount]
  rw [boundedSearch, foldl_boundedStep_split,
    foldl_boundedStep_fill (l.take k1) [] 0
      (by simp only [List.length_nil, Nat.zero_add, hlen_take])
      (by rw [hlen_take]; exact hk1)]
  simp only [List.nil_append]
  have hsi : SortInv k1 (sortDesc (List.map (fun r => (f r, r)) (l.take k1)),
      lastScore (sortDesc (List.map (fun r => (f r, r)) (l.take k1)))) := by
    refine ⟨?_, sortDesc_sorted _, rfl⟩
    show (sortDesc (List.map (fun r => (f r, r)) (l.take k1))).length = k1
    rw [length_sortDesc, List.length_map, hlen_take]
  by_cases hm : m ∈ l.take k1
  · have hmds : m ∉ l.drop k1 := by
      intro hmm
      have h1 : 0 < List.count m (l.take k1) := List.count_pos_iff.mpr hm
      have h2 : 0 < List.count m (l.drop k1) := List.count_pos_iff.mpr hmm
      omega
    have hfull : FullInv f k1 m (sortDesc (List.map (fun r => (f r, r)) (l.take k1)),
        lastScore (sortDesc (List.map (fun r => (f r, r)) (l.take k1)))) := by
      refine ⟨hsi, ?_, ?_⟩
      · exact head?_sortDesc_of_strict_max (List.mem_map.mpr ⟨m, hm, rfl⟩)
          (by
            rintro y hy hne
            obtain ⟨r, hr, rfl⟩ := List.mem_map.mp hy
            exact hother r (List.take_subset k1 l hr) fun h => hne (by rw [h]))
      · intro z hz hne
        obtain ⟨r, hr, rfl⟩ := List.mem_map.mp (mem_sortDesc.mp hz)
        exact hother r (List.take_subset k1 l hr) fun h => hne (by rw [h])
    have hfin := fullInv_foldl (l.drop k1) _
      (fun r hr => hother r (List.drop_subset k1 l hr) fun h => hmds (h ▸ hr)) hfull
    rw [head?_take hk1, hfin.2.1]
  · have hmd : m ∈ l.drop k1 := by
      have hml' := hml
      rw [← List.take_append_drop k1 l] at hml'
      rcases List.mem_append.mp hml' with h | h
      · exact absurd h hm
      · exact h
    obtain ⟨s1, s2, hs⟩ := List.append_of_mem hmd
    have hctake : List.count m (l.take k1) = 0 := List.count_eq_zero.mpr hm
    rw [hs, List.count_append, List.count_cons_self] at hcsplit
    have hms1 : m ∉ s1 := List.count_eq_zero.mp (by omega)
    have hms2 : m ∉ s2 := List.count_eq_zero.mp (by omega)
    have hpre : PreInv f k1 m (sortDesc (List.map (fun r => (f r, r)) (l.take k1)),
        lastScore (sortDesc (List.map (fun r => (f r, r)) (l.take k1)))) := by
      refine ⟨hsi, ?_⟩
      intro z hz
      obtain ⟨r, hr, rfl⟩ := List.mem_map.mp (mem_sortDesc.mp hz)
      exact hother r (List.take_subset k1 l hr) fun h => hm (h ▸ hr)
    rw [hs, List.foldl_append, List.foldl_cons]
    have hpre2 := preInv_foldl hk1 s1 _
      (fun r hr => hother r (List.drop_subset k1 l (hs ▸ List.mem_append_left _ hr))
        fun h => hms1 (h ▸ hr)) hpre
    have harr := preInv_arrive hk1 hpre2
    have hfin := fullInv_foldl s2 _
      (fun r hr => hother r
        (List.drop_subset k1 l
          (hs ▸ List.mem_append_right _ (List.mem_cons_of_mem m hr)))
        fun h => hms2 (h ▸ hr)) harr
    rw [head?_take hk1, hfin.2.1]

/-- C3 witness: on the dataset [1, 9, 5] with unique maximum 9, UltraFast
(k = 2) bounded search and Normal (k = 5) exhaustive search agree on the
top-1 result. -/
theorem top1_bounded_eq_normal_witness :
    (boundedSearch (id : ℚ → ℚ) 2 [1, 9, 5]).head? =
      (normalSearch (id : ℚ → ℚ) 5 [1, 9, 5]).head? :=
  top1_bounded_eq_normal id 2 5 [1, 9, 5] [1] [5] 9 (by norm_num) (by decide)
    (by norm_num) rfl (by with_unfolding_all decide)

end VectorSearch

lemma dropWhile_head?_not {p : Char → Bool} :
    ∀ (l : List Char) (c : Char), (l.dropWhile p).head? = some c → p c = false := by
  intro l
  induction l with
  | nil => intro c hc; simp at hc
  | cons a t ih =>
    intro c hc
    rw [List.dropWhile_cons] at hc
    by_cases hp : p a = true
    · rw [if_pos hp] at hc
      exact ih c hc
    · rw [if_neg hp] at hc
      injection hc with hc
      rw [← hc]
      exact Bool.not_eq_true _ |>.mp hp

lemma getLast?_of_suffix {l1 l2 : List Char} (h : l1 <:+ l2) {c : Char}
    (hc : l1.getLast? = some c) : l2.getLast? = some c := by
  obtain ⟨pre, rfl⟩ := h
  rw [List.getLast?_append, hc]
  rfl

lemma trimL_head? {l : List Char} {c : Char} (hc : (trimL l).head? = some c) :
    isWs c = false := by
  rw [trimL, List.head?_reverse] at hc
  have hsuf := List.dropWhile_suffix (l := (l.dropWhile isWs).reverse) isWs
  have h2 := getLast?_of_suffix hsuf hc
  rw [List.getLast?_reverse] at h2
  exact dropWhile_head?_not l c h2

lemma trimL_getLast? {l : List Char} {c : Char} (hc : (trimL l).getLast? = some c) :
    isWs c = false := by
  rw [trimL, List.getLast?_reverse] at hc
  exact dropWhile_head?_not _ c hc

lemma splitWsGo_eq_wsTokensGo :
    ∀ (l cur : List Char) (sep : Bool),
      (∀ c, l.getLast? = some c → isWs c = false) →
      (sep = true → cur = [] ∧ l ≠ []) →
      (sep = false → cur ≠ [] ∨ ∃ c t, l = c :: t ∧ isWs c = false) →
      splitWsGo l cur sep = wsTokensGo l cur := by
  intro l
  induction l with
  | nil =>
    intro cur sep hlast hsep hnosep
    cases sep with
    | true => exact absurd rfl (hsep rfl).2
    | false =>
      rcases hnosep rfl with hcur | ⟨c, t, hct, _⟩
      · simp [splitWsGo, wsTokensGo, hcur]
      · exact absurd hct (by simp)
  | cons c rest ih =>
    intro cur sep hlast hsep hnosep
    have hlast' : ∀ c', rest.getLast? = some c' → isWs c' = false := by
      intro c' hc'
      apply hlast
      cases rest with
      | nil => simp at hc'
      | cons a t => rw [List.getLast?_cons_cons]; exact hc'
    by_cases hws : isWs c = true
    · have hrest : rest ≠ [] := by
        intro hnil
        subst hnil
        have := hlast c (by simp)
        rw [hws] at this
        cases this
      have htail := ih [] true hlast' (fun _ => ⟨rfl, hrest⟩) (fun h => nomatch h)
      cases sep with
      | true =>
        obtain ⟨hcur, -⟩ := hsep rfl
        subst hcur
        simp [splitWsGo, wsTokensGo, hws, htail]
      | false =>
        have hcur : cur ≠ [] := by
          rcases hnosep rfl with hc | ⟨c', t, hct, hnws⟩
          · exact hc
          · injection hct with h1 _
            subst h1
            rw [hws] at hnws
            cases hnws
        simp [splitWsGo, wsTokensGo, hws, hcur, htail]
    · have hws' : isWs c = false := Bool.not_eq_true _ |>.mp hws
      have htail := ih (c :: cur) false hlast' (fun h => nomatch h)
        (fun _ => Or.inl (by simp))
      cases sep with
      | true =>
        obtain ⟨hcur, -⟩ := hsep rfl
        subst hcur
        simp [splitWsGo, wsTokensGo, hws', htail]
      | false =>
        simp [splitWsGo, wsTokensGo, hws', htail]

lemma splitWs_eq_wsTokens {s : List Char} (hne : s ≠ [])
    (hhead : ∀ c, s.head? = some c → isWs c = false)
    (hlast : ∀ c, s.getLast? = some c → isWs c = false) :
    splitWs s = wsTokens s := by
  rw [splitWs, wsTokens]
  apply splitWsGo_eq_wsTokensGo s [] false hlast (fun h => nomatch h)
  intro _
  right
  cases s with
  | nil => exact absurd rfl hne
  | cons c t => exact ⟨c, t, rfl, hhead c rfl⟩

lemma normalize_splitWs_eq_wsTokens {s : List Char} (hne : normalize s ≠ []) :
    splitWs (normalize s) = wsTokens (normalize s) := by
  refine splitWs_eq_wsTokens hne ?_ ?_
  · intro c hc
    exact trimL_head? hc
  · intro c hc
    exact trimL_getLast? hc

lemma splitWsGo_ne_nil : ∀ (l cur : List Char) (sep : Bool), splitWsGo l cur sep ≠ [] := by
  intro l
  induction l with
  | nil => intro cur sep; simp [splitWsGo]
  | cons c rest ih =>
    intro cur sep
    rw [splitWsGo]
    by_cases hws : isWs c = true
    · simp only [hws, if_true]
      cases sep with
      | true => simpa using ih [] true
      | false => simp
    · simp only [hws, Bool.false_eq_true, if_false]
      · simpa [Bool.not_eq_true _ |>.mp hws] using ih (c :: cur) false

lemma any_contains_eq_decide (t2 : List (List Char)) (w : List Char) :
    (t2.any fun v => containsL v w || containsL w v) =
      decide (∃ v ∈ t2, IsSubstr w v ∨ IsSubstr v w) := by
  rw [Bool.eq_iff_iff, List.any_eq_true, decide_eq_true_eq]
  constructor
  · rintro ⟨v, hv, hb⟩
    rcases Bool.or_eq_true _ _ |>.mp hb with hb | hb
    · exact ⟨v, hv, Or.inl (containsL_iff.mp hb)⟩
    · exact ⟨v, hv, Or.inr (containsL_iff.mp hb)⟩
  · rintro ⟨v, hv, hb | hb⟩
    · exact ⟨v, hv, Bool.or_eq_true _ _ |>.mpr (Or.inl (containsL_iff.mpr hb))⟩
    · exact ⟨v, hv, Bool.or_eq_true _ _ |>.mpr (Or.inr (containsL_iff.mpr hb))⟩

lemma containsL_of_nil_right (big : List Char) : containsL big [] = true :=
  containsL_nil big

lemma calculateSimilarity_eq_specScore (a b : List Char) :
    calculateSimilarity a b = specScore a b := by
  by_cases h1 : normalize a = normalize b
  · simp [calculateSimilarity, specScore, h1]
  · by_cases h2 :
      (containsL (normalize a) (normalize b) || containsL (normalize b) (normalize a)) = true
    · have h2' : IsSubstr (normalize a) (normalize b) ∨ IsSubstr (normalize b) (normalize a) := by
        rcases Bool.or_eq_true _ _ |>.mp h2 with hb | hb
        · exact Or.inr (containsL_iff.mp hb)
        · exact Or.inl (containsL_iff.mp hb)
      simp only [calculateSimilarity, specScore]
      rw [if_neg h1, if_pos h2, if_neg h1, if_pos h2']
    · have h2' : ¬(IsSubstr (normalize a) (normalize b) ∨
          IsSubstr (normalize b) (normalize a)) := by
        rintro (hs | hs)
        · exact h2 (Bool.or_eq_true _ _ |>.mpr (Or.inr (containsL_iff.mpr hs)))
        · exact h2 (Bool.or_eq_true _ _ |>.mpr (Or.inl (containsL_iff.mpr hs)))
      have hna : normalize a ≠ [] := by
        intro hnil
        exact h2 (Bool.or_eq_true _ _ |>.mpr (Or.inr (by rw [hnil]; exact containsL_nil _)))
      have hnb : normalize b ≠ [] := by
        intro hnil
        exact h2 (Bool.or_eq_true _ _ |>.mpr (Or.inl (by rw [hnil]; exact containsL_nil _)))
      simp only [calculateSimilarity, specScore]
      rw [if_neg h1, if_neg h2, if_neg h1, if_neg h2']
      rw [normalize_splitWs_eq_wsTokens hna, normalize_splitWs_eq_wsTokens hnb]
      rw [List.countP_eq_length_filter]
      rw [List.filter_congr
        (fun w _ => (any_contains_eq_decide (wsTokens (normalize b)) w).symm)]

lemma calculateSimilarity_mem_unit (a b : List Char) :
    0 ≤ calculateSimilarity a b ∧ calculateSimilarity a b ≤ 1 := by
  by_cases h1 : normalize a = normalize b
  · simp [calculateSimilarity, h1]
  · by_cases h2 :
      (containsL (normalize a) (normalize b) || containsL (normalize b) (normalize a)) = true
    · simp only [calculateSimilarity]
      rw [if_neg h1, if_pos h2]
      norm_num
    · simp only [calculateSimilarity]
      rw [if_neg h1, if_neg h2]
      have hlen1 : 1 ≤ (splitWs (normalize a)).length :=
        List.length_pos.mpr (splitWsGo_ne_nil (normalize a) [] false)
      have hlen2 : 1 ≤ (splitWs (normalize b)).length :=
        List.length_pos.mpr (splitWsGo_ne_nil (normalize b) [] false)
      have h1q : (0 : ℚ) < ((splitWs (normalize a)).length : ℚ) := by
        exact_mod_cast hlen1
      have hmaxpos : (0 : ℚ) <
          max ((splitWs (normalize a)).length : ℚ) ((splitWs (normalize b)).length : ℚ) :=
        lt_of_lt_of_le h1q (le_max_left _ _)
      constructor
      · exact div_nonneg (by exact_mod_cast Nat.zero_le _) (le_of_lt hmaxpos)
      · rw [div_le_one hmaxpos]
        have hle : ((List.filter
            (fun word => (splitWs (normalize b)).any fun w2 =>
              containsL w2 word || containsL word w2)
            (splitWs (normalize a))).length : ℚ) ≤
            ((splitWs (normalize a)).length : ℚ) := by
          exact_mod_cast List.length_filter_le _ _
        exact le_trans hle (le_max_left _ _)

/-- C5: `calculateSimilarity` implements exactly the spec's three-rule
priority algorithm (first matching rule wins, no blending): it agrees with
the word-for-word rendering `specScore` on every input, its result always
lies in [0, 1], and every string scores 1.0 against itself. -/
theorem calculateSimilarity_refines_spec :
    (∀ a b : List Char, calculateSimilarity a b = specScore a b ∧
      0 ≤ calculateSimilarity a b ∧ calculateSimilarity a b ≤ 1) ∧
    (∀ s : List Char, calculateSimilarity s s = 1) := by
  constructor
  · intro a b
    exact ⟨calculateSimilarity_eq_specScore a b, calculateSimilarity_mem_unit a b⟩
  · intro s
    simp [calculateSimilarity]

end ChatTalk
